import Mathlib

/-!
Verification development for the `tutelary` authorization policy engine.

The Python source (`tutelary/base.py`, `tutelary/models.py`) is shallowly
embedded below:

* strings are `List Char` at the escaping/splitting level and `String` at the
  pattern-component level;
* fallible constructors (`Clause.__init__`, `Policy.__init__`) become
  `Except`-valued functions;
* the Django ORM state used by the permission-set cache becomes explicit
  state passing over a `CacheDB` value;
* the `WildTree` class is imported by `base.py` but its module is not part of
  the sources; its lookup/insert behaviour is modelled from the spec
  (see `lookupList` below).
-/

set_option autoImplicit false

namespace Tutelary

/-! ## String utilities (tutelary/base.py, bottom of file)

Python `str.replace(old, new)` scans left to right, replacing non-overlapping
occurrences.  The source only ever calls it with one- and two-character
patterns, embedded here as `replace1` and `replace2`.
-/

/-- Embedding of Python `s.replace(a, r)` for a single-character pattern `a`:
every occurrence of the character `a` is replaced by the string `r`. -/
def replace1 (a : Char) (r : List Char) : List Char → List Char
  | [] => []
  | c :: rest => if c = a then r ++ replace1 a r rest else c :: replace1 a r rest

/-- Embedding of Python `s.replace(ab, r)` for a two-character pattern `a b`:
scan left to right; when the next two characters are `a` then `b`, emit `r`
and continue after them (non-overlapping), otherwise keep one character. -/
def replace2 (a b : Char) (r : List Char) : List Char → List Char
  | [] => []
  | [c] => [c]
  | c :: d :: rest =>
    if c = a ∧ d = b then r ++ replace2 a b r rest
    else c :: replace2 a b r (d :: rest)

/-- `escape(s, sep)` from base.py:
`s.replace("\\", "\\\\").replace(sep, "\\" + sep)` — double every backslash,
then put a backslash before every separator. -/
def escape (sep : Char) (s : List Char) : List Char :=
  replace1 sep ['\\', sep] (replace1 '\\' ['\\', '\\'] s)

/-- `unescape(s, sep)` from base.py:
`s.replace("\\" + sep, sep).replace("\\\\", "\\")` — drop the backslash in
front of every escaped separator, then halve doubled backslashes, in that
order. -/
def unescape (sep : Char) (s : List Char) : List Char :=
  replace2 '\\' '\\' ['\\'] (replace2 '\\' sep [sep] s)

/-- Embedding of Python `s.split(sep)` for a single-character separator
(used by `SimpleSeparated._split_components`, i.e. for `Action`). -/
def splitOnChar (sep : Char) : List Char → List (List Char)
  | [] => [[]]
  | c :: cs =>
    match splitOnChar sep cs with
    | [] => []
    | t :: ts => if c = sep then [] :: t :: ts else (c :: t) :: ts

/-- Embedding of `EscapeSeparated._split_components`: the compiled regex
`(?:SEP)?((?:[^SEP\\]|\\.)+)` together with `regex.split(s)[1::2]` yields the
maximal nonempty runs of (a character other than the separator and the
backslash | a backslash followed by any character), an optional separator
being consumed before each run and unmatched text (stray separators and a
lone trailing backslash) being discarded.  `cur` is the run read so far. -/
def splitEscaped (sep : Char) (cur : List Char) : List Char → List (List Char)
  | [] => if cur = [] then [] else [cur]
  | c :: cs =>
    if c = sep then
      if cur = [] then splitEscaped sep [] cs
      else cur :: splitEscaped sep [] cs
    else if c = '\\' then
      match cs with
      | [] => if cur = [] then [] else [cur]
      | d :: ds => splitEscaped sep (cur ++ ['\\', d]) ds
    else splitEscaped sep (cur ++ [c]) cs

/-! ## Pattern sequences (`SimpleSeparated`, `EscapeSeparated`, `Action`, `Object`)

A pattern sequence is its list of string components; the wildcard component
is the literal string `"*"`. -/

/-- A component of an `Action`/`Object` pattern. -/
abbrev Component := String

/-- A pattern or lookup key: an ordered list of components. -/
abbrev PathKey := List Component

/-- `Action(s)` for a string `s`: split on `.` with no escaping
(`SimpleSeparated._split_components` with `Action.separator = '.'`). -/
def Action.ofString (s : String) : PathKey :=
  (splitOnChar '.' s.toList).map String.mk

/-- `Object(s)` for a string `s`: regex-split on `/` and unescape each
component (`EscapeSeparated._split_components` with
`Object.separator = '/'`). -/
def Object.ofString (s : String) : PathKey :=
  (splitEscaped '/' [] s.toList).map (fun l => String.mk (unescape '/' l))

/-- Python `sep.join(parts)` for a single-character separator. -/
def joinSep (sep : Char) : List (List Char) → List Char
  | [] => []
  | [x] => x
  | x :: xs => x ++ sep :: joinSep sep xs

/-- `Object.__str__` at the character-list level: escape each component and
join with the separator (`self.separator.join([escape(s, sep) ...])`). -/
def objectToString (comps : List (List Char)) : List Char :=
  joinSep '/' (comps.map (escape '/'))

/-- `Object` parsing at the character-list level: split on unescaped `/`
then unescape each component. -/
def objectParse (s : List Char) : List (List Char) :=
  (splitEscaped '/' [] s).map (unescape '/')

/-- `SimpleSeparated.match`: two pattern sequences match iff they have the
same length and at every position the components are equal or at least one
of them is the wildcard `"*"`. -/
def seqMatch (a b : PathKey) : Bool :=
  a.length = b.length &&
    (a.zip b).all (fun p => p.1 = p.2 || p.1 = "*" || p.2 = "*")

/-- A pattern sequence is concrete when no component is the wildcard. -/
def isConcrete (a : PathKey) : Bool :=
  a.all (fun c => c ≠ "*")

/-! ## The wildcard tree

`base.py` stores effects with `self.tree[action.components + object.components]
= effect` and reads them back with `self.tree[...]`, but the `wildtree`
module itself is not among the sources; its behaviour is modelled from the
spec (section 4.3).  Effects are the strings `"allow"` / `"deny"`, exactly as
the Python code stores them. -/

/-- Does a stored pattern key cover a lookup key?  Modelled from the spec:
a stored path is consistent with the query when they have the same length
and each stored component is either a literal equal to the query component
or the wildcard. -/
def keyMatches (stored query : PathKey) : Bool :=
  stored.length = query.length &&
    (stored.zip query).all (fun p => p.1 = p.2 || p.1 = "*")

/-- Number of wildcard components used along a stored path (its
unspecificity). -/
def wcount (p : PathKey) : Nat :=
  p.countP (fun c => c = "*")

/-- Modelled from the spec: `WildTree` lookup resolution over the stored
`(path, effect)` entries in insertion order (earliest first).  Among all
stored paths consistent with the query, the one using the fewest wildcard
components wins, and among equally specific paths the one inserted later
wins; the result carries the winning wildcard count and effect, and is
`none` (a `KeyError` in Python) when no stored path is consistent.  The
head entry therefore beats the best entry of the tail only when it is
strictly more specific. -/
def lookupList (k : PathKey) : List (PathKey × String) → Option (Nat × String)
  | [] => none
  | (p, e) :: rest =>
    match lookupList k rest with
    | none => if keyMatches p k then some (wcount p, e) else none
    | some (w, e') =>
      if keyMatches p k && decide (wcount p < w) then some (wcount p, e)
      else some (w, e')

/-- Modelled from the spec: a `WildTree` is determined by its stored
terminal paths with their effects, kept in insertion order. -/
structure WildTree where
  entries : List (PathKey × String)
deriving DecidableEq

/-- `WildTree()` with no JSON argument: the empty tree. -/
def WildTree.empty : WildTree := ⟨[]⟩

/-- Modelled from the spec: `tree[key] = effect` walks/creates the nodes for
`key` and sets the effect at the terminal node, overwriting any effect
previously set at that exact path; the overwritten path takes the recency
of the new insertion. -/
def WildTree.insert (t : WildTree) (k : PathKey) (e : String) : WildTree :=
  ⟨t.entries.filter (fun pe => pe.1 ≠ k) ++ [(k, e)]⟩

/-- Modelled from the spec: `tree[key]` resolves the lookup, `none` standing
for the `KeyError` raised when no stored path is consistent with the key. -/
def WildTree.find (t : WildTree) (k : PathKey) : Option String :=
  (lookupList k t.entries).map Prod.snd

/-! ## Clauses and policies (`Clause`, `Policy` in base.py)

Errors raised by the constructors become an `Except` error type; the
constructor names follow the exception classes imported by base.py
(`EffectException`, `PatternOverlapException`, `PolicyBodyException`). -/

/-- The exceptions base.py imports and raises during clause/policy
construction. -/
inductive TutErr where
  | effectErr : String → TutErr
  | patternOverlap : String → TutErr
  | policyBody : String → TutErr
deriving DecidableEq

/-- `any(a1.match(a2) for a1 in l for a2 in l if a1 != a2)` from
`Clause.__init__`. -/
def overlapsAny (l : List PathKey) : Bool :=
  l.any (fun a1 => l.any (fun a2 => a1 != a2 && seqMatch a1 a2))

/-- The same overlap condition as a proposition: two distinct patterns in
the list match each other. -/
def OverlapsP (l : List PathKey) : Prop :=
  ∃ a1 ∈ l, ∃ a2 ∈ l, a1 ≠ a2 ∧ seqMatch a1 a2 = true

/-- A validated clause: an effect plus action and object pattern lists. -/
structure Clause where
  effect : String
  action : List PathKey
  object : List PathKey
deriving DecidableEq

/-- `Clause.__init__` on explicit pattern lists: reject an unrecognised
effect, then overlapping action patterns, then overlapping object
patterns. -/
def Clause.init (effect : String) (action object : List PathKey) :
    Except TutErr Clause :=
  if effect ∉ ["allow", "deny"] then .error (.effectErr effect)
  else if overlapsAny action then .error (.patternOverlap "action")
  else if overlapsAny object then .error (.patternOverlap "object")
  else .ok ⟨effect, action, object⟩

/-- One entry of the `clause` list of a parsed policy body: the `effect`,
`action` and `object` fields, the latter two as raw strings. -/
structure ClauseDict where
  effect : String
  action : List String
  object : List String
deriving DecidableEq

/-- `Clause.__init__` on a dictionary: build `Action`/`Object` patterns from
the raw strings, then validate as for explicit lists. -/
def Clause.ofDict (d : ClauseDict) : Except TutErr Clause :=
  Clause.init d.effect (d.action.map Action.ofString) (d.object.map Object.ofString)

/-- A parsed policy body after JSON decoding: an optional `version` field
and an optional `clause` list (`none` models an absent key). -/
structure PolicyDoc where
  version : Option String
  clause : Option (List ClauseDict)
deriving DecidableEq

/-- `[Clause(dict=c) for c in self.clauses]`: build the clauses left to
right; the first failing clause construction aborts the whole list. -/
def buildClauses : List ClauseDict → Except TutErr (List Clause)
  | [] => .ok []
  | d :: ds =>
    match Clause.ofDict d with
    | .error e => .error e
    | .ok c =>
      match buildClauses ds with
      | .error e => .error e
      | .ok cs => .ok (c :: cs)

/-- A constructed policy, with the `nitems`/`nclauses` counters computed by
`Policy.__init__`. -/
structure Policy where
  version : String
  clauses : List Clause
  nitems : Nat
  nclauses : Nat
deriving DecidableEq

/-- `Policy.__init__` after JSON decoding, in source order:
`self.version = 'version' in d and d['version'] or '2015-12-10'` (a present
but falsy — empty — version also falls back to the default), then the
`clause` key is required, then the clauses are constructed (the first
failing clause aborts), and only then is the version validated. -/
def Policy.init (d : PolicyDoc) : Except TutErr Policy :=
  let version :=
    match d.version with
    | some v => if v ≠ "" then v else "2015-12-10"
    | none => "2015-12-10"
  match d.clause with
  | none => .error (.policyBody "no policy clauses")
  | some cs =>
    match buildClauses cs with
    | .error e => .error e
    | .ok clauses =>
      if version ∈ ["2015-12-10"] then
        .ok ⟨version, clauses,
             (clauses.map (fun c => c.action.length * c.object.length)).sum,
             clauses.length⟩
      else .error (.policyBody "version not recognised")

/-- `Policy.__len__`: the number of expanded (action, object) pairs, not the
number of clauses. -/
def Policy.len (p : Policy) : Nat := p.nitems

/-- `Policy.__getitem__`: index into the clause list; `none` models the
`IndexError` escaping from `self.clauses[idx]`. -/
def Policy.getItem (p : Policy) (idx : Nat) : Option Clause :=
  p.clauses.get? idx

/-- `Policy.__iter__`: yield `(effect, action, object)` for every clause, in
clause order, crossing each clause's action list with its object list. -/
def Policy.triples (p : Policy) : List (String × PathKey × PathKey) :=
  p.clauses.flatMap (fun c => c.action.flatMap (fun a => c.object.map (fun o => (c.effect, a, o))))

/-! ## Permission sets (`PermissionSet` in base.py) -/

/-- A permission set wraps a wildcard tree. -/
structure PermissionSet where
  tree : WildTree
deriving DecidableEq

/-- `PermissionSet()` with no arguments: an empty tree. -/
def PermissionSet.empty : PermissionSet := ⟨WildTree.empty⟩

/-- `PermissionSet.add(effect, action, object)`:
`self.tree[action.components + object.components] = effect`. -/
def PermissionSet.add (ps : PermissionSet) (effect : String)
    (action object : PathKey) : PermissionSet :=
  ⟨ps.tree.insert (action ++ object) effect⟩

/-- `PermissionSet.add(policy=p)`: insert every expanded triple of the
policy in iteration order. -/
def PermissionSet.addPolicy (ps : PermissionSet) (p : Policy) : PermissionSet :=
  p.triples.foldl (fun ps t => ps.add t.1 t.2.1 t.2.2) ps

/-- `PermissionSet(policies=pols)`: start from the empty tree and add each
policy in order. -/
def PermissionSet.ofPolicies (pols : List Policy) : PermissionSet :=
  pols.foldl PermissionSet.addPolicy PermissionSet.empty

/-- `PermissionSet.allow`:
`try: return self.tree[action.components + object.components] == 'allow'
except KeyError: return False`.  There is no concreteness check on the
arguments; the only failure of the lookup is the no-match `KeyError`, which
is caught. -/
def PermissionSet.allow (ps : PermissionSet) (action object : PathKey) : Bool :=
  match ps.tree.find (action ++ object) with
  | some e => e == "allow"
  | none => false

/-- `PermissionSet.permitted_actions`: the body of the source method is
`pass`, so the call returns Python's `None` for every input, embedded as
`none`.  (The spec reconstructs an intended behaviour instead.) -/
def PermissionSet.permittedActs (_ps : PermissionSet) (_object : PathKey) :
    Option (List PathKey) :=
  none

/-! ## The permission-set cache (`PermissionSetManager.by_policies` in models.py)

The Django database state is passed explicitly: a `CacheDB` holds the stored
permission-set rows, each with its primary key and its ordered list of
policy instances `(policy identity, serialised variable assignments)`, plus
the next fresh primary key.  `by_policies` returns the (possibly unchanged)
database together with the primary key of the returned permission set;
returning an existing key models returning the same model instance. -/

/-- A stored permission-set row: primary key plus the ordered policy
instances `(policy id, serialised variables)` attached to it. -/
structure PSetRow where
  id : Nat
  instances : List (Nat × String)
deriving DecidableEq

/-- The database state seen by the permission-set manager. -/
structure CacheDB where
  psets : List PSetRow
  nextId : Nat
deriving DecidableEq

/-- `PermissionSetManager.by_policies` over explicit state.  The input is
the canonicalised policy list (policy identity plus serialised variable
assignments, as produced by the `canonpols` computation).  An existing
permission set whose policy-instance rows equal the input list
position-by-position is returned as is; otherwise a fresh row is created
holding exactly the input list. -/
def by_policies (db : CacheDB) (pols : List (Nat × String)) : CacheDB × Nat :=
  match db.psets.find? (fun r => r.instances == pols) with
  | some r => (db, r.id)
  | none => (⟨db.psets ++ [⟨db.nextId, pols⟩], db.nextId + 1⟩, db.nextId)

/-- Database well-formedness: distinct rows have distinct primary keys and
distinct instance lists, and every primary key is below the fresh-key
counter. -/
def CacheDB.wf (db : CacheDB) : Prop :=
  db.psets.Pairwise (fun a b => a.id ≠ b.id ∧ a.instances ≠ b.instances) ∧
    ∀ r ∈ db.psets, r.id < db.nextId

/-! ## Concrete permission sets used in the claims -/

/-- The spec's override example: grant `("party.*", "Org/*")`, then deny
`("party.delete", "Org/*")`, in that order. -/
def psetOverride : PermissionSet :=
  (PermissionSet.empty.add "allow" (Action.ofString "party.*")
      (Object.ofString "Org/*")).add
    "deny" (Action.ofString "party.delete") (Object.ofString "Org/*")

/-- A permission set holding the single grant `("party.*", "Org/*")`. -/
def psetWildGrant : PermissionSet :=
  PermissionSet.empty.add "allow" (Action.ofString "party.*") (Object.ofString "Org/*")

/-! # Claims

One theorem per claim of the specification audit, with a closed witness for
every theorem that carries hypotheses. -/

/-- C2: for every permission set and well-formed concrete query, `allow`
returns a boolean — `true` iff the tree lookup resolves to `"allow"`,
`false` when it resolves to `"deny"` and when nothing matches (`KeyError`
caught) — and a permission set built from an empty policy list denies every
concrete query. -/
theorem allow_boolean_deny_default (ps : PermissionSet) (a o : PathKey)
    (_ha : isConcrete a = true) (_ho : isConcrete o = true) :
    (ps.allow a o = true ↔ ps.tree.find (a ++ o) = some "allow") ∧
    (ps.tree.find (a ++ o) = some "deny" → ps.allow a o = false) ∧
    (ps.tree.find (a ++ o) = none → ps.allow a o = false) ∧
    (PermissionSet.ofPolicies []).allow a o = false := by
  refine ⟨?_, ?_, ?_, ?_⟩
  · rcases h : ps.tree.find (a ++ o) with _ | e <;> simp [PermissionSet.allow, h]
  · intro h; simp [PermissionSet.allow, h]
  · intro h; simp [PermissionSet.allow, h]
  · simp [PermissionSet.ofPolicies, PermissionSet.empty, PermissionSet.allow,
      WildTree.empty, WildTree.find, lookupList]

/-- Witness for C2 at the concrete query `("party.edit", "Org/1")` on the
override permission set. -/
theorem allow_boolean_deny_default_witness :
    (isConcrete (Action.ofString "party.edit") = true ∧
      isConcrete (Object.ofString "Org/1") = true) ∧
    ((psetOverride.allow (Action.ofString "party.edit") (Object.ofString "Org/1") = true ↔
        psetOverride.tree.find
          (Action.ofString "party.edit" ++ Object.ofString "Org/1") = some "allow") ∧
      (psetOverride.tree.find
          (Action.ofString "party.edit" ++ Object.ofString "Org/1") = some "deny" →
        psetOverride.allow (Action.ofString "party.edit") (Object.ofString "Org/1") = false) ∧
      (psetOverride.tree.find
          (Action.ofString "party.edit" ++ Object.ofString "Org/1") = none →
        psetOverride.allow (Action.ofString "party.edit") (Object.ofString "Org/1") = false) ∧
      (PermissionSet.ofPolicies []).allow (Action.ofString "party.edit")
        (Object.ofString "Org/1") = false) :=
  ⟨⟨by decide, by decide⟩,
    allow_boolean_deny_default psetOverride _ _ (by decide) (by decide)⟩

/-- C3 counterexample: `allow` does not reject wildcard queries.  The query
`("party.*", "Org/*")` contains wildcard components, yet `allow` evaluates
it as an ordinary lookup and returns `true` on a set holding the grant
`("party.*", "Org/*")` — no `InvalidQueryError` exists in the code (base.py
imports no such exception and catches only `KeyError`). -/
theorem allow_wildcard_query_returns_bool :
    isConcrete (Action.ofString "party.*") = false ∧
    psetWildGrant.allow (Action.ofString "party.*") (Object.ofString "Org/*") = true := by
  decide

/-- C3 amended: `allow` performs no concreteness validation; a query whose
action or object contains a wildcard component is evaluated exactly like any
other key against the tree, yielding a boolean rather than an error. -/
theorem allow_no_concreteness_check (ps : PermissionSet) (a o : PathKey)
    (_hwild : ¬(isConcrete a = true ∧ isConcrete o = true)) :
    ps.allow a o = true ↔ ps.tree.find (a ++ o) = some "allow" := by
  rcases h : ps.tree.find (a ++ o) with _ | e <;> simp [PermissionSet.allow, h]

/-- Witness for the amended C3 at the wildcard query `("party.*", "Org/*")`. -/
theorem allow_no_concreteness_check_witness :
    (¬(isConcrete (Action.ofString "party.*") = true ∧
        isConcrete (Object.ofString "Org/*") = true)) ∧
    (psetWildGrant.allow (Action.ofString "party.*") (Object.ofString "Org/*") = true ↔
      psetWildGrant.tree.find
        (Action.ofString "party.*" ++ Object.ofString "Org/*") = some "allow") :=
  ⟨by decide, allow_no_concreteness_check psetWildGrant _ _ (by decide)⟩

/-- C4: the source body of `PermissionSet.permitted_actions` is `pass`, so
the call returns `None` for every permission set and object pattern instead
of the set of permitted registered actions. -/
theorem permitted_acts_stub_returns_none (ps : PermissionSet) (o : PathKey) :
    ps.permittedActs o = none := rfl

/-- The boolean overlap check of `Clause.__init__` decides the proposition
"some two distinct patterns in the list match each other". -/
theorem overlapsAny_eq_true_iff (l : List PathKey) :
    overlapsAny l = true ↔ OverlapsP l := by
  simp [overlapsAny, OverlapsP, List.any_eq_true, Bool.and_eq_true, bne_iff_ne]

/-- C6: with a recognised effect, clause construction fails with a
pattern-overlap error exactly when two distinct patterns on one side match
each other, the action side being named when it is the overlapping one and
the object side being named otherwise; in particular the action list
`["party.edit", "party.*"]` is rejected naming the action side while
`["party.edit", "parcel.edit"]` constructs successfully. -/
theorem clause_overlap_validation (effect : String) (action object : List PathKey)
    (hEff : effect = "allow" ∨ effect = "deny") :
    ((∃ s, Clause.init effect action object = .error (.patternOverlap s)) ↔
      (OverlapsP action ∨ OverlapsP object)) ∧
    (OverlapsP action →
      Clause.init effect action object = .error (.patternOverlap "action")) ∧
    (¬OverlapsP action → OverlapsP object →
      Clause.init effect action object = .error (.patternOverlap "object")) ∧
    (¬OverlapsP action → ¬OverlapsP object →
      Clause.init effect action object = .ok ⟨effect, action, object⟩) ∧
    Clause.init "allow" (["party.edit", "party.*"].map Action.ofString) [["Org", "1"]] =
      .error (.patternOverlap "action") ∧
    Clause.init "allow" (["party.edit", "parcel.edit"].map Action.ofString) [["Org", "1"]] =
      .ok ⟨"allow", [["party", "edit"], ["parcel", "edit"]], [["Org", "1"]]⟩ := by
  have hmem : effect ∈ ["allow", "deny"] := by
    rcases hEff with h | h <;> simp [h]
  have hinit : Clause.init effect action object =
      (if overlapsAny action then .error (.patternOverlap "action")
       else if overlapsAny object then .error (.patternOverlap "object")
       else .ok ⟨effect, action, object⟩) := by
    simp [Clause.init, hmem]
  rw [hinit]
  refine ⟨?_, ?_, ?_, ?_, rfl, rfl⟩
  · by_cases hA : overlapsAny action <;> by_cases hO : overlapsAny object <;>
      simp [hA, hO, ← overlapsAny_eq_true_iff]
  · intro h
    rw [if_pos ((overlapsAny_eq_true_iff action).mpr h)]
  · intro hA hO
    rw [if_neg (by simp [overlapsAny_eq_true_iff, hA]),
      if_pos ((overlapsAny_eq_true_iff object).mpr hO)]
  · intro hA hO
    rw [if_neg (by simp [overlapsAny_eq_true_iff, hA]),
      if_neg (by simp [overlapsAny_eq_true_iff, hO])]

/-- Witness for C6 at the effect `"allow"` and the overlapping action list
`["party.edit", "party.*"]`. -/
theorem clause_overlap_validation_witness :
    (("allow" : String) = "allow" ∨ ("allow" : String) = "deny") ∧
    (OverlapsP (["party.edit", "party.*"].map Action.ofString) →
      Clause.init "allow" (["party.edit", "party.*"].map Action.ofString) [["Org", "1"]] =
        .error (.patternOverlap "action")) :=
  ⟨Or.inl rfl,
    (clause_overlap_validation "allow" (["party.edit", "party.*"].map Action.ofString)
      [["Org", "1"]] (Or.inl rfl)).2.1⟩

/-- Clause construction only ever raises effect or pattern-overlap errors,
never a policy-body error. -/
theorem clause_init_not_policyBody (e : String) (a o : List PathKey) (m : String) :
    Clause.init e a o ≠ .error (.policyBody m) := by
  unfold Clause.init
  split_ifs <;> simp

/-- `Clause.ofDict` never raises a policy-body error. -/
theorem clause_ofDict_not_policyBody (d : ClauseDict) (m : String) :
    Clause.ofDict d ≠ .error (.policyBody m) :=
  clause_init_not_policyBody _ _ _ m

/-- An error of `buildClauses` is the error of some clause in the list. -/
theorem buildClauses_error {cs : List ClauseDict} {err : TutErr}
    (h : buildClauses cs = .error err) : ∃ d ∈ cs, Clause.ofDict d = .error err := by
  induction cs with
  | nil => simp [buildClauses] at h
  | cons d ds ih =>
    simp only [buildClauses] at h
    cases hd : Clause.ofDict d with
    | error e =>
      rw [hd] at h
      simp only [Except.error.injEq] at h
      exact ⟨d, by simp, by rw [hd, h]⟩
    | ok c =>
      rw [hd] at h
      cases hb : buildClauses ds with
      | error e =>
        rw [hb] at h
        simp only [Except.error.injEq] at h
        obtain ⟨d', hm, hd'⟩ := ih (by rw [hb, h])
        exact ⟨d', by simp [hm], hd'⟩
      | ok cs2 => rw [hb] at h; simp at h

/-- Inversion of a successful `Policy.__init__`: the clause key was present,
every clause constructed, the counters hold their defining sums, and the
version is the recognised one. -/
theorem policy_init_ok_inv {d : PolicyDoc} {p : Policy} (h : Policy.init d = .ok p) :
    ∃ cs, d.clause = some cs ∧ buildClauses cs = .ok p.clauses ∧
      p.nitems = (p.clauses.map (fun c => c.action.length * c.object.length)).sum ∧
      p.nclauses = p.clauses.length ∧ p.version = "2015-12-10" := by
  simp only [Policy.init] at h
  split at h
  case h_1 heq => simp at h
  case h_2 cs heq =>
    split at h
    case h_1 e heq2 => simp at h
    case h_2 clauses heq2 =>
      split at h
      case isTrue hv =>
        simp only [Except.ok.injEq] at h
        subst h
        simp only [List.mem_singleton] at hv
        exact ⟨cs, heq, by rw [heq2], rfl, rfl, hv⟩
      case isFalse hv => simp at h

/-- C5 counterexample: a policy body whose `clause` collection is present
but empty constructs successfully, producing a policy with zero clauses —
only the absence of the key is rejected. -/
theorem policy_empty_clause_list_accepted :
    Policy.init ⟨none, some []⟩ = .ok ⟨"2015-12-10", [], 0, 0⟩ ∧
    (Policy.mk "2015-12-10" [] 0 0).nclauses = 0 := ⟨rfl, rfl⟩

/-- C5 amended: policy construction fails with the "no policy clauses"
body error exactly when the `clause` key is absent; an empty clause list is
accepted. -/
theorem policy_missing_clause_key_rejected (d : PolicyDoc) :
    Policy.init d = .error (.policyBody "no policy clauses") ↔ d.clause = none := by
  constructor
  · intro h
    simp only [Policy.init] at h
    split at h
    case h_1 heq => exact heq
    case h_2 cs heq =>
      exfalso
      split at h
      case h_1 e heq2 =>
        simp only [Except.error.injEq] at h
        obtain ⟨d', _, hd'⟩ := buildClauses_error (by rw [heq2, h])
        exact clause_ofDict_not_policyBody d' _ hd'
      case h_2 clauses heq2 =>
        split at h
        · simp at h
        · simp only [Except.error.injEq, TutErr.policyBody.injEq] at h
          exact absurd h (by decide)
  · intro h
    simp [Policy.init, h]

/-- Witness for the amended C5 at a body with no `clause` key. -/
theorem policy_missing_clause_key_rejected_witness :
    Policy.init ⟨none, none⟩ = .error (.policyBody "no policy clauses") :=
  (policy_missing_clause_key_rejected ⟨none, none⟩).mpr rfl

/-- C9 counterexample: a present but falsy (empty-string) version field is
not rejected — it is silently replaced by the default version and the
policy constructs. -/
theorem policy_falsy_version_defaults :
    ("" : String) ≠ "2015-12-10" ∧
    Policy.init ⟨some "", some [⟨"allow", ["party.edit"], ["Org/1"]⟩]⟩ =
      .ok ⟨"2015-12-10", [⟨"allow", [["party", "edit"]], [["Org", "1"]]⟩], 1, 1⟩ :=
  ⟨by decide, rfl⟩

/-- C9 amended: a present, nonempty version other than the recognised
string makes construction fail (with whichever error fires first), while an
absent or empty version field falls back to the default, so a successfully
constructed policy always carries the recognised version. -/
theorem policy_version_validation (d : PolicyDoc) (v : String) (p : Policy) :
    (d.version = some v → v ≠ "" → v ≠ "2015-12-10" → Policy.init d ≠ .ok p) ∧
    ((d.version = none ∨ d.version = some "") → Policy.init d = .ok p →
      p.version = "2015-12-10") := by
  constructor
  · intro hv hne hnr hok
    simp only [Policy.init, hv] at hok
    rw [if_pos hne] at hok
    split at hok
    case h_1 heq => simp at hok
    case h_2 cs heq =>
      split at hok
      case h_1 e heq2 => simp at hok
      case h_2 clauses heq2 =>
        split at hok
        case isTrue hmem => simp only [List.mem_singleton] at hmem; exact hnr hmem
        case isFalse hmem => simp at hok
  · intro hd hok
    obtain ⟨cs, hc, hb, _, _, hver⟩ := policy_init_ok_inv hok
    exact hver

/-- Witness for the amended C9: a body with version `"bogus"` is rejected. -/
theorem policy_version_validation_witness :
    Policy.init ⟨some "bogus", some []⟩ ≠ .ok ⟨"2015-12-10", [], 0, 0⟩ :=
  (policy_version_validation ⟨some "bogus", some []⟩ "bogus" ⟨"2015-12-10", [], 0, 0⟩).1
    rfl (by decide) (by decide)

/-- Summing a constant over a list multiplies it by the length. -/
theorem sum_map_const_nat {α : Type} (l : List α) (n : Nat) :
    (l.map (fun _ => n)).sum = l.length * n := by
  induction l with
  | nil => simp
  | cons x t ih => simp [ih, Nat.succ_mul]; ring

/-- A sum of positive summands dominates the number of summands. -/
theorem length_le_sum_map {α : Type} (l : List α) (f : α → Nat)
    (h : ∀ a ∈ l, 1 ≤ f a) : l.length ≤ (l.map f).sum := by
  induction l with
  | nil => simp
  | cons x t ih =>
    have hx := h x (by simp)
    have ht := ih (fun a ha => h a (by simp [ha]))
    simp only [List.map_cons, List.sum_cons, List.length_cons]
    omega

/-- A sum of positive summands with one summand at least two strictly
dominates the number of summands. -/
theorem length_lt_sum_map {α : Type} (l : List α) (f : α → Nat)
    (h1 : ∀ a ∈ l, 1 ≤ f a) (h2 : ∃ a ∈ l, 2 ≤ f a) :
    l.length < (l.map f).sum := by
  induction l with
  | nil => simp at h2
  | cons x t ih =>
    have hx := h1 x (by simp)
    have ht := length_le_sum_map t f (fun a ha => h1 a (by simp [ha]))
    simp only [List.map_cons, List.sum_cons, List.length_cons]
    rcases h2 with ⟨a, ha, h2a⟩
    rcases List.mem_cons.mp ha with rfl | hat
    · omega
    · have := ih (fun a ha => h1 a (by simp [ha])) ⟨a, hat, h2a⟩
      omega

/-- The expanded iteration of a policy yields one triple per (action,
object) pair of each clause. -/
theorem policy_triples_length (p : Policy) :
    p.triples.length = (p.clauses.map (fun c => c.action.length * c.object.length)).sum := by
  simp only [Policy.triples, List.length_flatMap, List.length_map]
  congr 1
  refine List.map_congr_left (fun c _ => ?_)
  simp only [Function.comp_def, List.length_flatMap, List.length_map]
  exact sum_map_const_nat _ _

/-- C10 counterexample: a clause with two actions but an empty object list
contributes zero expanded pairs, so the constructed policy has
`len(p) = 0` even though it has one clause with more than one action —
`len(p)` does not exceed the clause count there. -/
theorem policy_len_zero_pattern_clause :
    Policy.init ⟨none, some [⟨"allow", ["a", "b"], []⟩]⟩ =
      .ok ⟨"2015-12-10", [⟨"allow", [["a"], ["b"]], []⟩], 0, 1⟩ ∧
    (∃ c ∈ (Policy.mk "2015-12-10" [⟨"allow", [["a"], ["b"]], []⟩] 0 1).clauses,
      1 < c.action.length) ∧
    ¬ (Policy.mk "2015-12-10" [⟨"allow", [["a"], ["b"]], []⟩] 0 1).nclauses <
        (Policy.mk "2015-12-10" [⟨"allow", [["a"], ["b"]], []⟩] 0 1).nitems :=
  ⟨rfl, by decide, by decide⟩

/-- C10 amended: for a successfully constructed policy, `len(p)` is the sum
over clauses of (actions × objects), indexing returns the i-th clause and
fails from the clause count upward, iteration yields exactly `len(p)`
triples in clause order, and `len(p)` exceeds the clause count whenever
some clause has more than one action or object, provided every clause has
at least one action and one object. -/
theorem policy_len_getitem_iter (d : PolicyDoc) (p : Policy)
    (h : Policy.init d = .ok p) :
    p.len = (p.clauses.map (fun c => c.action.length * c.object.length)).sum ∧
    p.triples.length = p.len ∧
    (∀ i, p.getItem i = p.clauses.get? i) ∧
    (∀ i, p.nclauses ≤ i → p.getItem i = none) ∧
    ((∀ c ∈ p.clauses, c.action ≠ [] ∧ c.object ≠ []) →
      (∃ c ∈ p.clauses, 1 < c.action.length ∨ 1 < c.object.length) →
      p.nclauses < p.len) := by
  obtain ⟨cs, hc, hb, hnit, hncl, hver⟩ := policy_init_ok_inv h
  refine ⟨hnit, by simp only [policy_triples_length, Policy.len, hnit], fun i => rfl, ?_, ?_⟩
  · intro i hi
    rw [hncl] at hi
    simp only [Policy.getItem, List.get?_eq_getElem?]
    exact List.getElem?_eq_none hi
  · intro hne hbig
    rw [hncl, Policy.len, hnit]
    refine length_lt_sum_map _ _ ?_ ?_
    · intro c hcmem
      obtain ⟨ha, ho⟩ := hne c hcmem
      have h1 : 1 ≤ c.action.length := List.length_pos.mpr ha
      have h2 : 1 ≤ c.object.length := List.length_pos.mpr ho
      exact Nat.one_le_iff_ne_zero.mpr (by positivity)
    · obtain ⟨c, hcmem, hc2⟩ := hbig
      obtain ⟨ha, ho⟩ := hne c hcmem
      have h1 : 1 ≤ c.action.length := List.length_pos.mpr ha
      have h2 : 1 ≤ c.object.length := List.length_pos.mpr ho
      refine ⟨c, hcmem, ?_⟩
      rcases hc2 with hc2 | hc2 <;> nlinarith

/-- Witness for the amended C10 at a two-clause policy with a multi-action
clause. -/
theorem policy_len_getitem_iter_witness :
    Policy.init ⟨none, some [⟨"allow", ["a", "b"], ["X"]⟩]⟩ =
      .ok ⟨"2015-12-10", [⟨"allow", [["a"], ["b"]], [["X"]]⟩], 2, 1⟩ ∧
    ((Policy.mk "2015-12-10" [⟨"allow", [["a"], ["b"]], [["X"]]⟩] 2 1).len =
      ((Policy.mk "2015-12-10" [⟨"allow", [["a"], ["b"]], [["X"]]⟩] 2 1).clauses.map
        (fun c => c.action.length * c.object.length)).sum ∧
      (Policy.mk "2015-12-10" [⟨"allow", [["a"], ["b"]], [["X"]]⟩] 2 1).triples.length =
        (Policy.mk "2015-12-10" [⟨"allow", [["a"], ["b"]], [["X"]]⟩] 2 1).len ∧
      (∀ i, (Policy.mk "2015-12-10" [⟨"allow", [["a"], ["b"]], [["X"]]⟩] 2 1).getItem i =
        (Policy.mk "2015-12-10" [⟨"allow", [["a"], ["b"]], [["X"]]⟩] 2 1).clauses.get? i) ∧
      (∀ i, (Policy.mk "2015-12-10" [⟨"allow", [["a"], ["b"]], [["X"]]⟩] 2 1).nclauses ≤ i →
        (Policy.mk "2015-12-10" [⟨"allow", [["a"], ["b"]], [["X"]]⟩] 2 1).getItem i = none) ∧
      ((∀ c ∈ (Policy.mk "2015-12-10" [⟨"allow", [["a"], ["b"]], [["X"]]⟩] 2 1).clauses,
          c.action ≠ [] ∧ c.object ≠ []) →
        (∃ c ∈ (Policy.mk "2015-12-10" [⟨"allow", [["a"], ["b"]], [["X"]]⟩] 2 1).clauses,
          1 < c.action.length ∨ 1 < c.object.length) →
        (Policy.mk "2015-12-10" [⟨"allow", [["a"], ["b"]], [["X"]]⟩] 2 1).nclauses <
          (Policy.mk "2015-12-10" [⟨"allow", [["a"], ["b"]], [["X"]]⟩] 2 1).len)) :=
  ⟨rfl, policy_len_getitem_iter ⟨none, some [⟨"allow", ["a", "b"], ["X"]⟩]⟩
    ⟨"2015-12-10", [⟨"allow", [["a"], ["b"]], [["X"]]⟩], 2, 1⟩ rfl⟩

/-- The modelled lookup fails exactly when no stored path is consistent
with the query. -/
theorem lookupList_eq_none_iff (k : PathKey) (l : List (PathKey × String)) :
    lookupList k l = none ↔ ∀ pe ∈ l, keyMatches pe.1 k = false := by
  induction l with
  | nil => simp [lookupList]
  | cons pe0 rest ih =>
    obtain ⟨p, e⟩ := pe0
    simp only [lookupList]
    cases hres : lookupList k rest with
    | none =>
      have hall := ih.mp hres
      by_cases hm : keyMatches p k = true
      · rw [if_pos hm]
        constructor
        · intro h
          exact absurd h (by simp)
        · intro h
          have := h (p, e) (by simp)
          rw [hm] at this
          exact absurd this (by simp)
      · rw [if_neg hm]
        simp only [Bool.not_eq_true] at hm
        constructor
        · intro _ pe hpe
          rcases List.mem_cons.mp hpe with rfl | hpe'
          · exact hm
          · exact hall pe hpe'
        · intro _
          rfl
    | some we =>
      obtain ⟨w, e'⟩ := we
      constructor
      · intro h
        exfalso
        by_cases hc : (keyMatches p k && decide (wcount p < w)) = true <;>
          simp [hc] at h
      · intro h
        exfalso
        have hnone : lookupList k rest = none :=
          ih.mpr (fun qe hqe => h qe (by simp [hqe]))
        rw [hres] at hnone
        exact Option.noConfusion hnone

/-- Specification of the modelled lookup: a successful lookup returns the
effect of a stored entry that is consistent with the query, has the minimal
wildcard count among consistent entries, and is the latest among the
equally specific consistent entries. -/
theorem lookupList_spec (k : PathKey) (l : List (PathKey × String)) (w : Nat) (e : String)
    (h : lookupList k l = some (w, e)) :
    ∃ i pe, l.get? i = some pe ∧ keyMatches pe.1 k = true ∧ wcount pe.1 = w ∧ pe.2 = e ∧
      ∀ j qe, l.get? j = some qe → keyMatches qe.1 k = true →
        w ≤ wcount qe.1 ∧ (wcount qe.1 = w → j ≤ i) := by
  induction l generalizing w e with
  | nil => simp [lookupList] at h
  | cons pe0 rest ih =>
    obtain ⟨p, e0⟩ := pe0
    simp only [lookupList] at h
    split at h
    case h_1 hres =>
      have hall := (lookupList_eq_none_iff k rest).mp hres
      by_cases hm : keyMatches p k = true
      · rw [if_pos hm] at h
        obtain ⟨hw, he⟩ : wcount p = w ∧ e0 = e := by
          simpa using h
        refine ⟨0, (p, e0), rfl, hm, hw, he, ?_⟩
        intro j qe hj hq
        cases j with
        | zero =>
          simp only [List.get?_cons_zero, Option.some.injEq] at hj
          subst hj
          exact ⟨hw.ge, fun _ => le_rfl⟩
        | succ j' =>
          simp only [List.get?_cons_succ] at hj
          have := hall qe (List.get?_mem hj)
          rw [hq] at this
          exact absurd this (by simp)
      · rw [if_neg hm] at h
        exact absurd h (by simp)
    case h_2 w' e' hres =>
      obtain ⟨i', pe', hget', hm', hw', he', hmin'⟩ := ih w' e' hres
      by_cases hc : (keyMatches p k && decide (wcount p < w')) = true
      · rw [if_pos hc] at h
        have hc2 := hc
        simp only [Bool.and_eq_true, decide_eq_true_eq] at hc2
        obtain ⟨hmp, hlt'⟩ := hc2
        obtain ⟨hw, he⟩ : wcount p = w ∧ e0 = e := by simpa using h
        refine ⟨0, (p, e0), rfl, hmp, hw, he, ?_⟩
        intro j qe hj hq
        cases j with
        | zero =>
          simp only [List.get?_cons_zero, Option.some.injEq] at hj
          subst hj
          exact ⟨hw.ge, fun _ => le_rfl⟩
        | succ j' =>
          simp only [List.get?_cons_succ] at hj
          have hge := (hmin' j' qe hj hq).1
          constructor
          · omega
          · intro hqw
            omega
      · rw [if_neg hc] at h
        obtain ⟨hw, he⟩ : w' = w ∧ e' = e := by simpa using h
        refine ⟨i' + 1, pe', by simpa using hget', hm', hw'.trans hw, he'.trans he, ?_⟩
        intro j qe hj hq
        cases j with
        | zero =>
          simp only [List.get?_cons_zero, Option.some.injEq] at hj
          subst hj
          have hnl : ¬ wcount p < w' := by
            intro hl
            exact hc (by simp [hq, hl])
          constructor
          · show w ≤ wcount p
            omega
          · intro _
            exact Nat.zero_le _
        | succ j' =>
          simp only [List.get?_cons_succ] at hj
          obtain ⟨h1, h2⟩ := hmin' j' qe hj hq
          constructor
          · omega
          · intro hqw
            have := h2 (by omega)
            omega

/-- C1: a lookup on a tree whose entries were inserted in order returns,
among the stored paths consistent with the concrete query, the effect of
the one with the fewest wildcard components, ties going to the most
recently inserted; in particular, after `("party.*", "Org/*") -> allow`
then `("party.delete", "Org/*") -> deny`, the query
`("party.delete", "Org/1")` is denied and `("party.edit", "Org/1")` is
allowed. -/
theorem wildtree_most_specific_latest_wins :
    (∀ (entries : List (PathKey × String)) (k : PathKey),
      (∃ pe ∈ entries, keyMatches pe.1 k = true) →
      ∃ i pe, entries.get? i = some pe ∧ keyMatches pe.1 k = true ∧
        lookupList k entries = some (wcount pe.1, pe.2) ∧
        ∀ j qe, entries.get? j = some qe → keyMatches qe.1 k = true →
          wcount pe.1 ≤ wcount qe.1 ∧ (wcount qe.1 = wcount pe.1 → j ≤ i)) ∧
    psetOverride.allow (Action.ofString "party.delete") (Object.ofString "Org/1") = false ∧
    psetOverride.allow (Action.ofString "party.edit") (Object.ofString "Org/1") = true := by
  refine ⟨?_, by decide, by decide⟩
  intro entries k hex
  cases hres : lookupList k entries with
  | none =>
    exfalso
    obtain ⟨pe, hpe, hm⟩ := hex
    have := (lookupList_eq_none_iff k entries).mp hres pe hpe
    rw [hm] at this
    exact absurd this (by simp)
  | some we =>
    obtain ⟨w, e⟩ := we
    obtain ⟨i, pe, hget, hm, hw, he, hmin⟩ := lookupList_spec k entries w e hres
    refine ⟨i, pe, hget, hm, by rw [hw, he], ?_⟩
    intro j qe hj hq
    obtain ⟨h1, h2⟩ := hmin j qe hj hq
    exact ⟨by omega, fun hqw => h2 (by omega)⟩

/-- Witness for C1 at the spec's override example. -/
theorem wildtree_most_specific_latest_wins_witness :
    (∃ pe ∈ psetOverride.tree.entries,
      keyMatches pe.1 (Action.ofString "party.delete" ++ Object.ofString "Org/1") = true) ∧
    (∃ i pe, psetOverride.tree.entries.get? i = some pe ∧
      keyMatches pe.1 (Action.ofString "party.delete" ++ Object.ofString "Org/1") = true ∧
      lookupList (Action.ofString "party.delete" ++ Object.ofString "Org/1")
        psetOverride.tree.entries = some (wcount pe.1, pe.2) ∧
      ∀ j qe, psetOverride.tree.entries.get? j = some qe →
        keyMatches qe.1 (Action.ofString "party.delete" ++ Object.ofString "Org/1") = true →
          wcount pe.1 ≤ wcount qe.1 ∧ (wcount qe.1 = wcount pe.1 → j ≤ i)) :=
  ⟨by decide,
    wildtree_most_specific_latest_wins.1 psetOverride.tree.entries
      (Action.ofString "party.delete" ++ Object.ofString "Org/1") (by decide)⟩

/-- Defining equation of `replace2` on two or more characters. -/
theorem replace2_cons_cons (a b : Char) (r : List Char) (c d : Char) (t : List Char) :
    replace2 a b r (c :: d :: t) =
      if c = a ∧ d = b then r ++ replace2 a b r t
      else c :: replace2 a b r (d :: t) := rfl

/-- Defining equation of `splitEscaped` on the empty input. -/
theorem splitEscaped_nil (sep : Char) (cur : List Char) :
    splitEscaped sep cur [] = if cur = [] then [] else [cur] := rfl

/-- Defining equation of `splitEscaped` on a nonempty input. -/
theorem splitEscaped_cons (sep : Char) (cur : List Char) (c : Char) (cs : List Char) :
    splitEscaped sep cur (c :: cs) =
      if c = sep then
        (if cur = [] then splitEscaped sep [] cs else cur :: splitEscaped sep [] cs)
      else if c = '\\' then
        (match cs with
          | [] => if cur = [] then [] else [cur]
          | d :: ds => splitEscaped sep (cur ++ ['\\', d]) ds)
      else splitEscaped sep (cur ++ [c]) cs := by
  cases cs <;> rfl

/-- Single-character replacement distributes over concatenation. -/
theorem replace1_append (a : Char) (r x y : List Char) :
    replace1 a r (x ++ y) = replace1 a r x ++ replace1 a r y := by
  induction x with
  | nil => simp [replace1]
  | cons c cs ih =>
    simp only [List.cons_append, replace1]
    by_cases h : c = a <;> simp [h, ih]

/-- `escape` maps each character independently: a backslash becomes two, a
separator gains a leading backslash, anything else is kept. -/
theorem escape_cons (sep : Char) (hsep : sep ≠ '\\') (c : Char) (cs : List Char) :
    escape sep (c :: cs) =
      (if c = '\\' then ['\\', '\\'] else if c = sep then ['\\', sep] else [c]) ++
        escape sep cs := by
  unfold escape
  by_cases h1 : c = '\\'
  · subst h1
    rw [if_pos rfl]
    have hinner : replace1 '\\' ['\\', '\\'] ('\\' :: cs) =
        ['\\', '\\'] ++ replace1 '\\' ['\\', '\\'] cs := by
      simp [replace1]
    rw [hinner, replace1_append]
    have houter : replace1 sep ['\\', sep] ['\\', '\\'] = ['\\', '\\'] := by
      simp [replace1, Ne.symm hsep]
    rw [houter]
  · rw [if_neg h1]
    have hinner : replace1 '\\' ['\\', '\\'] (c :: cs) =
        c :: replace1 '\\' ['\\', '\\'] cs := by
      simp [replace1, h1]
    rw [hinner]
    by_cases h2 : c = sep
    · subst h2
      rw [if_pos rfl]
      simp [replace1]
    · rw [if_neg h2]
      simp [replace1, h2]

/-- The escaped form of a component: a concatenation of units, each being
an ordinary character (not the separator, not a backslash) or a backslash
followed by an arbitrary character. -/
inductive IsEsc (sep : Char) : List Char → Prop
  | nil : IsEsc sep []
  | ord (c : Char) (t : List Char) : c ≠ sep → c ≠ '\\' → IsEsc sep t →
      IsEsc sep (c :: t)
  | esc (x : Char) (t : List Char) : IsEsc sep t → IsEsc sep ('\\' :: x :: t)

/-- Every `escape` output is a well-formed escaped string. -/
theorem isEsc_escape (sep : Char) (hsep : sep ≠ '\\') (s : List Char) :
    IsEsc sep (escape sep s) := by
  induction s with
  | nil => exact IsEsc.nil
  | cons c cs ih =>
    rw [escape_cons sep hsep]
    by_cases h1 : c = '\\'
    · rw [if_pos h1]
      exact IsEsc.esc _ _ ih
    · rw [if_neg h1]
      by_cases h2 : c = sep
      · rw [if_pos h2]
        exact IsEsc.esc _ _ ih
      · rw [if_neg h2]
        exact IsEsc.ord c _ h2 h1 ih

/-- `escape` of a nonempty component is nonempty. -/
theorem escape_ne_nil (sep : Char) (hsep : sep ≠ '\\') (s : List Char) (h : s ≠ []) :
    escape sep s ≠ [] := by
  cases s with
  | nil => exact absurd rfl h
  | cons c cs =>
    rw [escape_cons sep hsep]
    by_cases h1 : c = '\\' <;> by_cases h2 : c = sep <;> simp [h1, h2, hsep]

/-- Scanning a well-formed escaped run extends the current token without
emitting: the regex token run absorbs ordinary characters and
backslash-pairs. -/
theorem splitEscaped_isEsc_append (sep : Char) (hsep : sep ≠ '\\')
    (t : List Char) (ht : IsEsc sep t) :
    ∀ cur r, splitEscaped sep cur (t ++ r) = splitEscaped sep (cur ++ t) r := by
  induction ht with
  | nil => intro cur r; simp
  | ord c t' h1 h2 ht' ih =>
    intro cur r
    show splitEscaped sep cur (c :: (t' ++ r)) = _
    rw [splitEscaped_cons, if_neg h1, if_neg h2, ih]
    congr 1
    simp
  | esc x t' ht' ih =>
    intro cur r
    show splitEscaped sep cur ('\\' :: x :: (t' ++ r)) = _
    rw [splitEscaped_cons, if_neg (Ne.symm hsep), if_pos rfl]
    show splitEscaped sep (cur ++ ['\\', x]) (t' ++ r) = _
    rw [ih]
    congr 1
    simp

/-- Splitting the separator-join of nonempty well-formed escaped components
recovers exactly the components. -/
theorem splitEscaped_joinSep (sep : Char) (hsep : sep ≠ '\\') :
    ∀ comps : List (List Char), (∀ c ∈ comps, IsEsc sep c ∧ c ≠ []) →
      splitEscaped sep [] (joinSep sep comps) = comps := by
  intro comps
  induction comps with
  | nil => intro _; rfl
  | cons t ts ih =>
    intro h
    obtain ⟨hE, hne⟩ := h t (by simp)
    cases ts with
    | nil =>
      show splitEscaped sep [] (joinSep sep [t]) = [t]
      have hjl : joinSep sep [t] = t ++ [] := by simp [joinSep]
      rw [hjl, splitEscaped_isEsc_append sep hsep t hE]
      simp only [List.nil_append]
      rw [splitEscaped_nil, if_neg hne]
    | cons t2 ts2 =>
      show splitEscaped sep [] (t ++ sep :: joinSep sep (t2 :: ts2)) = _
      rw [splitEscaped_isEsc_append sep hsep t hE]
      simp only [List.nil_append]
      rw [splitEscaped_cons, if_pos rfl, if_neg hne]
      rw [ih (fun c hc => h c (by simp [hc]))]

/-- Two-character replacement passes over a head character that cannot
start the pattern. -/
theorem replace2_cons_ne (a b : Char) (r : List Char) (x : Char) (hx : x ≠ a)
    (t : List Char) :
    replace2 a b r (x :: t) = x :: replace2 a b r t := by
  cases t with
  | nil => rfl
  | cons d rest =>
    rw [replace2_cons_cons, if_neg (fun hcon => hx hcon.1)]

/-- Removing escaped separators never consumes the backslash that guards a
well-formed escaped tail. -/
theorem replace2_unsep_cons_bsl (sep : Char) (hsep : sep ≠ '\\')
    (t : List Char) (ht : IsEsc sep t) :
    replace2 '\\' sep [sep] ('\\' :: t) = '\\' :: replace2 '\\' sep [sep] t := by
  cases ht with
  | nil => rfl
  | ord c t' h1 h2 ht' =>
    rw [replace2_cons_cons, if_neg (fun hcon => h1 hcon.2)]
  | esc x t' ht' =>
    rw [replace2_cons_cons, if_neg (fun hcon => (Ne.symm hsep) hcon.2)]

/-- The two unescaping substitutions exactly invert the two escaping
substitutions, on every component. -/
theorem unescape_escape (sep : Char) (hsep : sep ≠ '\\') (s : List Char) :
    unescape sep (escape sep s) = s := by
  induction s with
  | nil => rfl
  | cons c cs ih =>
    rw [escape_cons sep hsep]
    have hE := isEsc_escape sep hsep cs
    by_cases h1 : c = '\\'
    · subst h1
      rw [if_pos rfl]
      show unescape sep ('\\' :: '\\' :: escape sep cs) = _
      unfold unescape
      have step1 : replace2 '\\' sep [sep] ('\\' :: '\\' :: escape sep cs) =
          '\\' :: '\\' :: replace2 '\\' sep [sep] (escape sep cs) := by
        have houter : replace2 '\\' sep [sep] ('\\' :: '\\' :: escape sep cs) =
            '\\' :: replace2 '\\' sep [sep] ('\\' :: escape sep cs) := by
          rw [replace2_cons_cons, if_neg (fun hcon => (Ne.symm hsep) hcon.2)]
        rw [houter, replace2_unsep_cons_bsl sep hsep _ hE]
      rw [step1]
      have step2 : replace2 '\\' '\\' ['\\']
          ('\\' :: '\\' :: replace2 '\\' sep [sep] (escape sep cs)) =
          '\\' :: replace2 '\\' '\\' ['\\'] (replace2 '\\' sep [sep] (escape sep cs)) := by
        rw [replace2_cons_cons, if_pos ⟨rfl, rfl⟩]
        rfl
      rw [step2]
      unfold unescape at ih
      rw [ih]
    · by_cases h2 : c = sep
      · rw [if_neg h1, if_pos h2, h2]
        show unescape sep ('\\' :: sep :: escape sep cs) = sep :: cs
        unfold unescape
        have step1 : replace2 '\\' sep [sep] ('\\' :: sep :: escape sep cs) =
            sep :: replace2 '\\' sep [sep] (escape sep cs) := by
          rw [replace2_cons_cons, if_pos ⟨rfl, rfl⟩]
          rfl
        rw [step1, replace2_cons_ne _ _ _ _ (Ne.symm (fun he => hsep he.symm))]
        unfold unescape at ih
        rw [ih]
      · rw [if_neg h1, if_neg h2]
        show unescape sep (c :: escape sep cs) = _
        unfold unescape
        rw [replace2_cons_ne _ _ _ _ h1, replace2_cons_ne _ _ _ _ h1]
        unfold unescape at ih
        rw [ih]

/-- C7: parsing the escaped string rendering of any Object pattern with
nonempty components yields the pattern back unchanged, and unescaping
exactly inverts the two escape substitutions on every component. -/
theorem object_pattern_roundtrip (comps : List (List Char))
    (h : ∀ c ∈ comps, c ≠ []) :
    objectParse (objectToString comps) = comps ∧
    ∀ s : List Char, unescape '/' (escape '/' s) = s := by
  have hsep : ('/' : Char) ≠ '\\' := by decide
  constructor
  · unfold objectParse objectToString
    rw [splitEscaped_joinSep '/' hsep (comps.map (escape '/'))
      (fun c hc => by
        obtain ⟨c0, hc0, rfl⟩ := List.mem_map.mp hc
        exact ⟨isEsc_escape '/' hsep c0, escape_ne_nil '/' hsep c0 (h c0 hc0)⟩)]
    rw [List.map_map]
    refine List.map_congr_left (fun c _ => ?_) |>.trans (List.map_id _)
    exact unescape_escape '/' hsep c
  · exact unescape_escape '/' hsep

/-- Witness for C7 at the spec's example pattern
`Org/Village-X\/Y/parcel/943`, whose second component contains a literal
separator. -/
theorem object_pattern_roundtrip_witness :
    (∀ c ∈ [("Org").toList, ("Village-X/Y").toList, ("parcel").toList, ("943").toList],
      c ≠ []) ∧
    objectParse (objectToString
      [("Org").toList, ("Village-X/Y").toList, ("parcel").toList, ("943").toList]) =
      [("Org").toList, ("Village-X/Y").toList, ("parcel").toList, ("943").toList] :=
  ⟨by decide,
    (object_pattern_roundtrip
      [("Org").toList, ("Village-X/Y").toList, ("parcel").toList, ("943").toList]
      (by decide)).1⟩

/-- In a pairwise-related list, two members not related either way are equal. -/
theorem pairwise_eq_of_not_rel {α : Type} (R : α → α → Prop) :
    ∀ (l : List α) (a b : α), l.Pairwise R → a ∈ l → b ∈ l →
      ¬R a b → ¬R b a → a = b := by
  intro l
  induction l with
  | nil => intro a b _ ha; simp at ha
  | cons x t ih =>
    intro a b hp ha hb hnab hnba
    obtain ⟨hx, ht⟩ := List.pairwise_cons.mp hp
    rcases List.mem_cons.mp ha with rfl | ha'
    · rcases List.mem_cons.mp hb with rfl | hb'
      · rfl
      · exact absurd (hx b hb') hnab
    · rcases List.mem_cons.mp hb with rfl | hb'
      · exact absurd (hx a ha') hnba
      · exact ih a b ht ha' hb' hnab hnba

/-- Under well-formedness, two stored rows with the same instance list are
the same row. -/
theorem cacheDB_row_unique_instances {db : CacheDB} (hwf : db.wf) {r1 r2 : PSetRow}
    (h1 : r1 ∈ db.psets) (h2 : r2 ∈ db.psets) (h : r1.instances = r2.instances) :
    r1 = r2 :=
  pairwise_eq_of_not_rel _ db.psets r1 r2 hwf.1 h1 h2
    (fun hr => hr.2 h) (fun hr => hr.2 h.symm)

/-- Under well-formedness, two stored rows with the same primary key are
the same row. -/
theorem cacheDB_row_unique_id {db : CacheDB} (hwf : db.wf) {r1 r2 : PSetRow}
    (h1 : r1 ∈ db.psets) (h2 : r2 ∈ db.psets) (h : r1.id = r2.id) :
    r1 = r2 :=
  pairwise_eq_of_not_rel _ db.psets r1 r2 hwf.1 h1 h2
    (fun hr => hr.1 h) (fun hr => hr.1 h.symm)

/-- After one `by_policies` call on a well-formed database, the database is
still well-formed and holds a row with exactly the requested instance list
whose primary key is the returned one. -/
theorem by_policies_post (db : CacheDB) (pols : List (Nat × String)) (hwf : db.wf) :
    (by_policies db pols).1.wf ∧
    ∃ r ∈ (by_policies db pols).1.psets,
      r.instances = pols ∧ r.id = (by_policies db pols).2 := by
  unfold by_policies
  cases hf : db.psets.find? (fun r => r.instances == pols) with
  | some r =>
    have hmem : r ∈ db.psets := List.mem_of_find?_eq_some hf
    have hinst : r.instances = pols := by
      have := List.find?_some hf
      simpa using this
    exact ⟨hwf, r, hmem, hinst, rfl⟩
  | none =>
    have hnone : ∀ x ∈ db.psets, ¬ x.instances = pols := by
      intro x hx
      have := List.find?_eq_none.mp hf x hx
      simpa using this
    refine ⟨⟨?_, ?_⟩, ⟨db.nextId, pols⟩, by simp, rfl, rfl⟩
    · rw [List.pairwise_append]
      refine ⟨hwf.1, by simp, ?_⟩
      intro a ha b hb
      simp only [List.mem_singleton] at hb
      subst hb
      constructor
      · exact Nat.ne_of_lt (hwf.2 a ha)
      · exact fun hinst => hnone a ha (by rw [hinst])
    · intro r hr
      rcases List.mem_append.mp hr with hr' | hr'
      · exact Nat.lt_succ_of_lt (hwf.2 r hr')
      · simp only [List.mem_singleton] at hr'
        subst hr'
        exact Nat.lt_succ_self _

/-- A `by_policies` call on a database already holding a row with the
requested instance list returns that row's key and leaves the database
unchanged. -/
theorem by_policies_hit (db : CacheDB) (pols : List (Nat × String)) (hwf : db.wf)
    (r : PSetRow) (hr : r ∈ db.psets) (hinst : r.instances = pols) :
    by_policies db pols = (db, r.id) := by
  unfold by_policies
  cases hf : db.psets.find? (fun x => x.instances == pols) with
  | some r' =>
    have hmem : r' ∈ db.psets := List.mem_of_find?_eq_some hf
    have hinst' : r'.instances = pols := by
      have := List.find?_some hf
      simpa using this
    have : r' = r :=
      cacheDB_row_unique_instances hwf hmem hr (hinst'.trans hinst.symm)
    rw [this]
  | none =>
    exfalso
    have := List.find?_eq_none.mp hf r hr
    simp [hinst] at this

/-- A `by_policies` call never returns the key of a stored row whose
instance list differs from the requested one. -/
theorem by_policies_miss_ne (db : CacheDB) (pols' : List (Nat × String)) (hwf : db.wf)
    (r : PSetRow) (hr : r ∈ db.psets) (hinst_ne : r.instances ≠ pols') :
    (by_policies db pols').2 ≠ r.id := by
  unfold by_policies
  cases hf : db.psets.find? (fun x => x.instances == pols') with
  | some r' =>
    have hmem' : r' ∈ db.psets := List.mem_of_find?_eq_some hf
    have hinst' : r'.instances = pols' := by
      have := List.find?_some hf
      simpa using this
    intro hideq
    have heq : r' = r := cacheDB_row_unique_id hwf hmem' hr hideq
    rw [heq] at hinst'
    exact hinst_ne hinst'
  | none =>
    have hlt : r.id < db.nextId := hwf.2 r hr
    simp only
    omega

/-- C8: re-running the lookup-or-build operation with the same canonicalised
ordered (policy, serialised-variables) sequence returns the very same stored
permission set and leaves the store unchanged, while any differing sequence
(different length, policy order, or serialised variables at some position)
yields a different permission set. -/
theorem cache_folds_identical_sequences (db : CacheDB)
    (pols pols' : List (Nat × String)) (hwf : db.wf) (hne : pols' ≠ pols) :
    by_policies (by_policies db pols).1 pols = by_policies db pols ∧
    (by_policies (by_policies db pols).1 pols').2 ≠ (by_policies db pols).2 := by
  obtain ⟨hwf1, r, hmem, hinst, hid⟩ := by_policies_post db pols hwf
  constructor
  · rw [by_policies_hit (by_policies db pols).1 pols hwf1 r hmem hinst, hid]
  · rw [← hid]
    exact by_policies_miss_ne (by_policies db pols).1 pols' hwf1 r hmem
      (fun h => hne (hinst.symm.trans h).symm)

/-- Witness for C8: from an empty store, the sequence
`[(policy 1, vars "v0"), (policy 2, vars "v1")]` folds with itself and
differs from its own swap. -/
theorem cache_folds_identical_sequences_witness :
    (CacheDB.mk [] 0).wf ∧
    ([(2, "v1"), (1, "v0")] ≠ [(1, "v0"), (2, "v1")]) ∧
    (by_policies (by_policies ⟨[], 0⟩ [(1, "v0"), (2, "v1")]).1 [(1, "v0"), (2, "v1")] =
      by_policies ⟨[], 0⟩ [(1, "v0"), (2, "v1")] ∧
    (by_policies (by_policies ⟨[], 0⟩ [(1, "v0"), (2, "v1")]).1 [(2, "v1"), (1, "v0")]).2 ≠
      (by_policies ⟨[], 0⟩ [(1, "v0"), (2, "v1")]).2) :=
  ⟨⟨List.Pairwise.nil, by simp⟩, by decide,
    cache_folds_identical_sequences ⟨[], 0⟩ [(1, "v0"), (2, "v1")] [(2, "v1"), (1, "v0")]
      ⟨List.Pairwise.nil, by simp⟩ (by decide)⟩

end Tutelary
